import Mathlib

/-!
# Verification of `util.go` (package `uget`)

A shallow embedding of the orchestration core of the segmented downloader:
range planning (`MakeRange`), the disk-space admission check (`IsFree`),
naming (`SetFullFileName`, `SetDirName`, `URLFileName`), progress polling
(`subDirsize`, `Progress`, `ProgressBar`) and the ordered merge
(`BindwithFiles`).

Conventions of the embedding:

* Go strings are lists of characters (`Str`).
* Go `uint` is a natural number below `2 ^ 64`; `uadd`, `usub`, `umul` are the
  wrapping machine operations.
* The operating system is an explicit state: a table of paths (`FS`).
* Functions that can fault at run time return a `Res` with a `fault` case.
-/

namespace Uget

/-! ## Strings and machine integers -/

/-- A Go string, as the list of its characters. -/
abbrev Str := List Char

/-- The number of values of Go's `uint` on the 64-bit targets. -/
def uintMod : Nat := 2 ^ 64

/-- Go `a + b` on `uint`. -/
def uadd (a b : Nat) : Nat := (a + b) % uintMod

/-- Go `a - b` on `uint` (operands below `uintMod`). -/
def usub (a b : Nat) : Nat := (a + uintMod - b) % uintMod

/-- Go `a * b` on `uint`. -/
def umul (a b : Nat) : Nat := (a * b) % uintMod

/-! ## The data model -/

/-- The `Data` struct: `filename`, `filesize`, `dirname`, `fullfilename`. -/
structure Data where
  filename : Str
  filesize : Nat
  dirname : Str
  fullfilename : Str
  deriving DecidableEq, Repr

/-- The `Range` struct handed to a download worker. -/
structure Range where
  low : Nat
  high : Nat
  worker : Nat
  deriving DecidableEq, Repr

/-- The getter `FileSize`. -/
def Data.FileSize (d : Data) : Nat := d.filesize

/-- The setter `SetFileSize`. -/
def Data.SetFileSize (d : Data) (size : Nat) : Data := { d with filesize := size }

/-- The setter `SetFileName`. -/
def Data.SetFileName (d : Data) (filename : Str) : Data := { d with filename := filename }

/-! ## `MakeRange` -/

/-- `MakeRange(i, split, procs)`: `low := split * i`, `high := low + split - 1`,
and `high = d.FileSize()` when `i == procs-1`. -/
def Data.MakeRange (d : Data) (i split procs : Nat) : Range :=
  let low := umul split i
  let high := usub (uadd low split) 1
  let high := if i = usub procs 1 then d.FileSize else high
  { low := low, high := high, worker := i }

/-! ## `IsFree` -/

/-- The message of the error `IsFree` returns. -/
def errNoSpace : Str := "there is not sufficient free space in a disk".toList

/-- `IsFree(split)`, with the value `freeSpace()` reads from the system volume as
the parameter `free`. `none` is Go's `nil` error. -/
def Data.IsFree (d : Data) (free : Nat) (split : Nat) : Option Str :=
  let want := uadd d.filesize split
  if free < want then some errNoSpace else none

/-! ## Formatting and path strings -/

/-- The verb `%d` of `fmt.Sprintf` on a non-negative integer: its decimal digits. -/
def fmtNat (n : Nat) : Str := Nat.toDigits 10 n

/-- The verb `%d` of `fmt.Sprintf` on a Go `int`. -/
def fmtInt : Int → Str
  | Int.ofNat n => fmtNat n
  | Int.negSucc n => '-' :: fmtNat (n + 1)

/-- The setter `SetFullFileName`: `filename`, or `directory/filename`. -/
def Data.SetFullFileName (d : Data) (directory filename : Str) : Data :=
  if directory = [] then
    { d with fullfilename := filename }
  else
    { d with fullfilename := directory ++ '/' :: filename }

/-- The format `"_%s.%d"` of `SetDirName`. -/
def scratchName (filename : Str) (procs : Int) : Str :=
  '_' :: (filename ++ '.' :: fmtInt procs)

/-- The setter `SetDirName`: `_filename.procs`, or `path/_filename.procs`. -/
def Data.SetDirName (d : Data) (path filename : Str) (procs : Int) : Data :=
  if path = [] then
    { d with dirname := scratchName filename procs }
  else
    { d with dirname := path ++ '/' :: scratchName filename procs }

/-- The format `"%s/%s.%d.%d"` of `BindwithFiles`: the path of chunk `i`. -/
def chunkPath (d : Data) (procs : Int) (i : Nat) : Str :=
  d.dirname ++ '/' :: (d.filename ++ '.' :: (fmtInt procs ++ '.' :: fmtInt (Int.ofNat i)))

/-- The call `strings.Split(s, sep)` for a one-character separator: the pieces
between the separators, one more than there are separators. -/
def stringsSplit (sep : Char) : Str → List Str
  | [] => [[]]
  | c :: cs =>
    if c = sep then [] :: stringsSplit sep cs
    else
      match stringsSplit sep cs with
      | [] => [[c]]
      | t :: ts => (c :: t) :: ts

/-- The call `errors.Wrap(err, msg)`: its text is `msg: err`. -/
def errorsWrap (err msg : Str) : Str := msg ++ ':' :: ' ' :: err

/-! ## The file system

The table lists the paths that exist; the first entry for a path is the one in
force, and the empty path never exists. Paths are compared as written, so the model speaks about paths in normal
form (no empty, `.` or `..` component, no links). Only structural failures are
modelled: a missing path, a directory where a file is needed, a directory that
still has entries. -/

/-- What a path names: a regular file with its bytes, or a directory. -/
inductive Node where
  | file (data : List Nat)
  | dir
  deriving DecidableEq, Repr

/-- A file-system state. -/
abbrev FS := List (Str × Node)

/-- The first entry of the table for a path. -/
def FS.find : FS → Str → Option Node
  | [], _ => none
  | (q, n) :: rest, p => if q = p then some n else FS.find rest p

/-- The node a path names, if the path exists. The empty path names nothing
(`ENOENT`). -/
def FS.get (fs : FS) (p : Str) : Option Node := if p = [] then none else FS.find fs p

/-- Drop a path from the table. -/
def FS.erase (fs : FS) (p : Str) : FS := fs.filter (fun e => decide (e.1 ≠ p))

/-- Bind a path to a node. -/
def FS.put (fs : FS) (p : Str) (n : Node) : FS := (p, n) :: FS.erase fs p

/-- Whether `p` lies strictly below the directory path `d`. -/
def isBelow (d p : Str) : Bool := (d ++ ['/']).isPrefixOf p

/-- Whether some path of the table lies below `d`. -/
def FS.hasEntryBelow (fs : FS) (d : Str) : Bool := fs.any (fun e => isBelow d e.1)

/-- The directory part of a path: what stands before its last `/`; `none` when
the path has no `/` (a name in the working directory). -/
def parentDir (p : Str) : Option Str :=
  if '/' ∈ p then some ((p.reverse.dropWhile (fun c => decide (c ≠ '/'))).drop 1).reverse
  else none

/-- Whether the directory a new file goes to exists. The working directory and
the root (the empty directory part) always do. -/
def FS.parentOk (fs : FS) (p : Str) : Bool :=
  match parentDir p with
  | none => true
  | some [] => true
  | some q => decide (FS.get fs q = some Node.dir)

/-- The call `os.Stat(p)`: whether it returns a nil error. -/
def osStat (fs : FS) (p : Str) : Bool := (FS.get fs p).isSome

/-- The call `os.Create(p)`: creates or truncates the file; fails on the empty
path, on a directory, and when the directory part is missing. -/
def osCreate (fs : FS) (p : Str) : Except Str FS :=
  if p = [] then Except.error ("open : no such file or directory".toList)
  else if FS.get fs p = some Node.dir then
    Except.error ("open ".toList ++ p ++ ": is a directory".toList)
  else if FS.parentOk fs p = false then
    Except.error ("open ".toList ++ p ++ ": no such file or directory".toList)
  else Except.ok (FS.put fs p (Node.file []))

/-- The call `os.Open(p)`: fails when the path does not exist. -/
def osOpen (fs : FS) (p : Str) : Except Str Node :=
  match FS.get fs p with
  | none => Except.error ("open ".toList ++ p ++ ": no such file or directory".toList)
  | some n => Except.ok n

/-- The bytes a reader on an opened node delivers; reading a directory fails
and delivers nothing. -/
def Node.bytes : Node → List Nat
  | Node.file bs => bs
  | Node.dir => []

/-- The call `io.Copy(fh, src)` where `fh` was created at `dst`: the bytes of the
source are appended to the file `fh` writes to. Its error is dropped by the
caller. Once `dst` has been unlinked the writes no longer show in the table. -/
def ioCopy (fs : FS) (dst : Str) (src : Node) : FS :=
  match FS.get fs dst with
  | some (Node.file old) => FS.put fs dst (Node.file (old ++ src.bytes))
  | _ => fs

/-- The call `os.Remove(p)`: unlinks a file or removes an empty directory. -/
def osRemove (fs : FS) (p : Str) : Except Str FS :=
  match FS.get fs p with
  | none => Except.error ("remove ".toList ++ p ++ ": no such file or directory".toList)
  | some (Node.file _) => Except.ok (FS.erase fs p)
  | some Node.dir =>
    if FS.hasEntryBelow fs p then
      Except.error ("remove ".toList ++ p ++ ": directory not empty".toList)
    else Except.ok (FS.erase fs p)

/-- The call `os.RemoveAll(p)`: removes `p` and everything below it; a missing
path is not an error, and the empty path is left alone. -/
def osRemoveAll (fs : FS) (p : Str) : Except Str FS :=
  if p = [] then Except.ok fs
  else Except.ok (fs.filter (fun e => decide (e.1 ≠ p) && !isBelow p e.1))

/-! ## Results of code that can fault -/

/-- The outcome of running a piece of code: a value, or a run-time fault (Go
`panic`). Loops that need a step budget return an `Option` of it, `none` when
the budget is used up. -/
inductive Res (α : Type) where
  | ok (a : α)
  | fault
  deriving DecidableEq, Repr

/-! ## `URLFileName` -/

/-- The first loop of `URLFileName`:
`for i := 1; original == ""; i++ { original = token[len(token)-i] }`.
The index is a Go `int`; an index outside `[0, len(token))` faults. -/
def originalLoop (token : List Str) : Nat → Nat → Str → Option (Res Str)
  | 0, _, original => if original = [] then none else some (Res.ok original)
  | n + 1, i, original =>
    if original = [] then
      let idx : Int := (token.length : Int) - (i : Int)
      if 0 ≤ idx ∧ idx < (token.length : Int) then
        originalLoop token n (i + 1) (token.getD idx.toNat [])
      else some Res.fault
    else some (Res.ok original)

/-- The path `URLFileName` hands to `os.Stat`: `filename`, or `targetDir/filename`. -/
def statPath (targetDir filename : Str) : Str :=
  if targetDir = [] then filename else targetDir ++ '/' :: filename

/-- The format `"%s-%d"` of `URLFileName`. -/
def suffixed (original : Str) (i : Nat) : Str := original ++ '-' :: fmtInt (Int.ofNat i)

/-- The second loop of `URLFileName`: while `os.Stat` finds the candidate, try
`original-i` for the next `i`. The counter is a Go `int` that starts at 1; it
would wrap only after `2 ^ 63 - 1` collisions and is a natural number here. -/
def uniqueLoop (fs : FS) (targetDir original : Str) : Nat → Nat → Str → Option Str
  | 0, _, _ => none
  | n + 1, i, filename =>
    if osStat fs (statPath targetDir filename) then
      uniqueLoop fs targetDir original n (i + 1) (suffixed original i)
    else some filename

/-- `URLFileName(targetDir, url)` on the file system `fs`, with a step budget for
each of its two loops. -/
def URLFileName (steps : Nat) (fs : FS) (targetDir url : Str) : Option (Res Str) :=
  let token := stringsSplit '/' url
  match originalLoop token steps 1 [] with
  | none => none
  | some Res.fault => some Res.fault
  | some (Res.ok original) =>
    match uniqueLoop fs targetDir original steps 1 original with
    | none => none
    | some filename => some (Res.ok filename)

/-- The last non-empty piece of a URL cut at `/`, if there is one. -/
def lastSegment (url : Str) : Option Str :=
  (stringsSplit '/' url).reverse.find? (fun s => decide (s ≠ []))

/-! ## `BindwithFiles` -/

/-- The context of the error for a destination that cannot be created. -/
def msgCreate : Str := "failed to create a file in download location".toList

/-- The context of the error for a chunk that cannot be opened:
`"failed to open "+f+" in download location"`. -/
def msgOpen (f : Str) : Str := "failed to open ".toList ++ f ++ " in download location".toList

/-- The context of the error for a chunk that cannot be removed. -/
def msgRemove : Str := "failed to remove a file in download location".toList

/-- The context of the error for a scratch directory that cannot be removed. -/
def msgRemoveAll : Str := "failed to remove download location".toList

/-- The loop of `BindwithFiles` from index `i` on, with `todo` iterations left
(`todo = procs - i`): open chunk `i`, copy it to the destination, remove it.
Returns the error, if any, and the file system it leaves. -/
def bindLoop (d : Data) (procs : Int) : Nat → Nat → FS → Option Str × FS
  | 0, _, fs => (none, fs)
  | todo + 1, i, fs =>
    let f := chunkPath d procs i
    match osOpen fs f with
    | Except.error err => (some (errorsWrap err (msgOpen f)), fs)
    | Except.ok subfp =>
      let fs1 := ioCopy fs d.fullfilename subfp
      match osRemove fs1 f with
      | Except.error err => (some (errorsWrap err msgRemove), fs1)
      | Except.ok fs2 => bindLoop d procs todo (i + 1) fs2

/-- `BindwithFiles(procs)`: create the destination, merge the chunks in index
order, remove the scratch directory. Returns the error (`none` is `nil`) and the
file system afterwards. -/
def Data.BindwithFiles (d : Data) (procs : Int) (fs : FS) : Option Str × FS :=
  match osCreate fs d.fullfilename with
  | Except.error err => (some (errorsWrap err msgCreate), fs)
  | Except.ok fs0 =>
    match bindLoop d procs procs.toNat 0 fs0 with
    | (some err, fs1) => (some err, fs1)
    | (none, fs1) =>
      match osRemoveAll fs1 d.dirname with
      | Except.error err => (some (errorsWrap err msgRemoveAll), fs1)
      | Except.ok fs2 => (none, fs2)

/-! ## `subDirsize`, `Progress` and `ProgressBar` -/

/-- What `os.FileInfo` tells the callback: `IsDir()` and `Size()`. -/
structure FileInfo where
  isDir : Bool
  size : Int
  deriving DecidableEq, Repr

/-- One call `filepath.Walk` makes to its callback: the path, the file info
(`none` is a nil `os.FileInfo`) and the error (`none` is `nil`). -/
structure Visit where
  path : Str
  info : Option FileInfo
  err : Option Str
  deriving DecidableEq, Repr

/-- The file info of a node. -/
def Node.info : Node → FileInfo
  | Node.file bs => { isDir := false, size := (bs.length : Int) }
  | Node.dir => { isDir := true, size := 0 }

/-- The calls `filepath.Walk(root, fn)` makes on a file system: when `Lstat(root)`
fails, one call with a nil info and the error; otherwise the root and, for a
directory, every path below it (in table order; Go walks in lexical order, which
the sum the callback forms does not depend on). -/
def filepathWalk (fs : FS) (root : Str) : List Visit :=
  match FS.get fs root with
  | none =>
    [{ path := root, info := none,
       err := some ("lstat ".toList ++ root ++ ": no such file or directory".toList) }]
  | some (Node.file bs) => [{ path := root, info := some (Node.file bs).info, err := none }]
  | some Node.dir =>
    { path := root, info := some Node.dir.info, err := none } ::
      ((fs.filter (fun e => isBelow root e.1 && decide (FS.get fs e.1 = some e.2))).map
        (fun e => { path := e.1, info := some e.2.info, err := none }))

/-- The callback of `subDirsize`:
`if !info.IsDir() { size += info.Size() }; return err`.
Calling `IsDir` on a nil `os.FileInfo` faults. -/
def walkFn (size : Int) (v : Visit) : Res (Int × Option Str) :=
  match v.info with
  | none => Res.fault
  | some info =>
    let size := if !info.isDir then size + info.size else size
    Res.ok (size, v.err)

/-- The callback run over the calls of a walk: a fault ends everything, a
non-nil error returned by the callback ends the walk and is the walk's error. -/
def walkSum : Int → List Visit → Res (Int × Option Str)
  | size, [] => Res.ok (size, none)
  | size, v :: vs =>
    match walkFn size v with
    | Res.ok (size1, none) => walkSum size1 vs
    | Res.ok (size1, some err) => Res.ok (size1, some err)
    | Res.fault => Res.fault

/-- `subDirsize(dirname)`. -/
def subDirsize (fs : FS) (dirname : Str) : Res (Int × Option Str) :=
  walkSum 0 (filepathWalk fs dirname)

/-- `Progress(dirname)`. -/
def Data.Progress (_d : Data) (fs : FS) (dirname : Str) : Res (Int × Option Str) :=
  subDirsize fs dirname

/-- The conversion `int64(x)` of a `uint`. -/
def toInt64 (x : Nat) : Int :=
  if x % uintMod < 2 ^ 63 then ((x % uintMod : Nat) : Int)
  else ((x % uintMod : Nat) : Int) - (uintMod : Int)

/-- What one turn of the loop of `ProgressBar` meets: the context already
cancelled, or a file system to measure. -/
inductive Tick where
  | cancelled
  | poll (fs : FS)

/-- How `ProgressBar` ends. -/
inductive Exit where
  | nilCancelled
  | nilFinished
  | error (msg : Str)
  | fault
  | running
  deriving DecidableEq, Repr

/-- The context of the error `ProgressBar` returns. -/
def msgDirSize : Str := "failed to get directory size".toList

/-- The loop of `ProgressBar` over the turns given; `bar` collects the values
passed to `bar.Set64`, oldest first. With no turn left the monitor is still
running. -/
def progressLoop (d : Data) (filesize : Int) (dirname : Str) :
    List Tick → List Int → List Int × Exit
  | [], bar => (bar, Exit.running)
  | Tick.cancelled :: _, bar => (bar, Exit.nilCancelled)
  | Tick.poll fs :: rest, bar =>
    match d.Progress fs dirname with
    | Res.fault => (bar, Exit.fault)
    | Res.ok (_, some err) => (bar, Exit.error (errorsWrap err msgDirSize))
    | Res.ok (size, none) =>
      if size < filesize then progressLoop d filesize dirname rest (bar ++ [size])
      else (bar ++ [filesize], Exit.nilFinished)

/-- `ProgressBar(ctx)`: the values reported to the bar and the way it ends. -/
def Data.ProgressBar (d : Data) (ticks : List Tick) : List Int × Exit :=
  progressLoop d (toInt64 d.filesize) d.dirname ticks []

/-! ## Helpers of the proofs -/

/-- The value of a string of decimal digits: the inverse of `fmtNat`. -/
def decodeNat (cs : Str) : Nat := cs.foldl (fun a c => 10 * a + (c.toNat - 48)) 0

/-! # Theorems -/

/-! ## Machine arithmetic -/

theorem usub_one_eq (procs : Nat) (hp : procs < uintMod) (h1 : 1 ≤ procs) :
    usub procs 1 = procs - 1 := by
  unfold usub uintMod at *
  omega

/-- C2: for `workerCount ≥ 1` and a worker index `i` below `workerCount - 1`,
`MakeRange` returns `low = chunkSize * i`, `worker = i`, `high = low + chunkSize - 1`
and `high - low + 1 = chunkSize`, all in wrapping `uint` arithmetic. -/
theorem MakeRange_non_last (d : Data) (i split procs : Nat)
    (hs : split < uintMod) (hp : procs < uintMod) (h1 : 1 ≤ procs) (hi : i < procs - 1) :
    (d.MakeRange i split procs).low = umul split i ∧
    (d.MakeRange i split procs).worker = i ∧
    (d.MakeRange i split procs).high = usub (uadd (d.MakeRange i split procs).low split) 1 ∧
    uadd (usub (d.MakeRange i split procs).high (d.MakeRange i split procs).low) 1 = split := by
  have hne : i ≠ usub procs 1 := by rw [usub_one_eq procs hp h1]; omega
  simp only [Data.MakeRange, if_neg hne, umul, true_and]
  have hlow : (split * i) % uintMod < uintMod := Nat.mod_lt _ (by unfold uintMod; positivity)
  generalize (split * i) % uintMod = low at hlow
  unfold uadd usub uintMod at *
  omega

/-- The statement of `MakeRange_non_last` at worker 1 of 4 with chunks of 300 bytes. -/
theorem MakeRange_non_last_witness :
    ((Data.mk [] 1000 [] []).MakeRange 1 300 4).low = umul 300 1 ∧
    ((Data.mk [] 1000 [] []).MakeRange 1 300 4).worker = 1 ∧
    ((Data.mk [] 1000 [] []).MakeRange 1 300 4).high =
      usub (uadd ((Data.mk [] 1000 [] []).MakeRange 1 300 4).low 300) 1 ∧
    uadd (usub ((Data.mk [] 1000 [] []).MakeRange 1 300 4).high
      ((Data.mk [] 1000 [] []).MakeRange 1 300 4).low) 1 = 300 :=
  MakeRange_non_last (Data.mk [] 1000 [] []) 1 300 4 (by decide) (by decide) (by decide)
    (by decide)

/-- C3: for `workerCount ≥ 1` the range of the last worker, index `workerCount - 1`,
has `high = filesize` whatever the chunk size; and for `filesize = 1000`,
`chunkSize = 300`, `workerCount = 4` the four ranges are `[0,299]`, `[300,599]`,
`[600,899]`, `[900,1000]`. -/
theorem MakeRange_last (d : Data) (split procs : Nat) (hp : procs < uintMod) (h1 : 1 ≤ procs) :
    (d.MakeRange (procs - 1) split procs).high = d.filesize ∧
    (d.filesize = 1000 →
      (List.range 4).map (fun i => d.MakeRange i 300 4)
        = [⟨0, 299, 0⟩, ⟨300, 599, 1⟩, ⟨600, 899, 2⟩, ⟨900, 1000, 3⟩]) := by
  constructor
  · simp [Data.MakeRange, usub_one_eq procs hp h1, Data.FileSize]
  · intro h
    simp [List.range, List.range.loop, Data.MakeRange, Data.FileSize, h, umul, uadd, usub, uintMod]

/-- The statement of `MakeRange_last` for a file of 1000 bytes, 4 workers and chunks
of 300 bytes: the last `high` is 1000 although `low + chunkSize - 1` is 1199. -/
theorem MakeRange_last_witness :
    (4 < uintMod ∧ 1 ≤ 4 ∧ (Data.mk [] 1000 [] []).filesize = 1000) ∧
    ((Data.mk [] 1000 [] []).MakeRange (4 - 1) 300 4).high = 1000 ∧
    usub (uadd ((Data.mk [] 1000 [] []).MakeRange (4 - 1) 300 4).low 300) 1 = 1199 ∧
    (List.range 4).map (fun i => (Data.mk [] 1000 [] []).MakeRange i 300 4)
      = [⟨0, 299, 0⟩, ⟨300, 599, 1⟩, ⟨600, 899, 2⟩, ⟨900, 1000, 3⟩] :=
  ⟨⟨by decide, by decide, rfl⟩,
    (MakeRange_last (Data.mk [] 1000 [] []) 300 4 (by decide) (by decide)).1,
    by decide,
    (MakeRange_last (Data.mk [] 1000 [] []) 300 4 (by decide) (by decide)).2 rfl⟩

/-- C4, the failing input: with `filesize = 2 ^ 64 - 1` and `split = 1` the sum
wraps to 0, and `IsFree` returns no error on a volume with no free byte, although
the free space is below the true sum `2 ^ 64`. -/
theorem IsFree_admits_on_overflow :
    (Data.mk [] (2 ^ 64 - 1) [] []).IsFree 0 1 = none ∧
    ¬ (0 ≥ (Data.mk [] (2 ^ 64 - 1) [] []).filesize + 1) := by
  decide

/-- While the sum of the two sizes stays below `2 ^ 64`, `IsFree` returns no error
exactly when the free space is at least the sum. -/
theorem IsFree_iff_of_no_overflow (d : Data) (free split : Nat)
    (h : d.filesize + split < uintMod) :
    d.IsFree free split = none ↔ free ≥ d.filesize + split := by
  simp [Data.IsFree, uadd, Nat.mod_eq_of_lt h]

/-! ## Decimal formatting -/

theorem digitChar_toNat (m : Nat) (hm : m < 10) : (Nat.digitChar m).toNat - 48 = m := by
  interval_cases m <;> rfl

theorem digitChar_not_sep (m : Nat) (hm : m < 10) :
    Nat.digitChar m ≠ '.' ∧ Nat.digitChar m ≠ '-' ∧ Nat.digitChar m ≠ '/' := by
  interval_cases m <;> decide

theorem toDigitsCore_decode (fuel : Nat) : ∀ (n : Nat) (ds : Str), n < fuel →
    (Nat.toDigitsCore 10 fuel n ds).foldl (fun a c => 10 * a + (c.toNat - 48)) 0
      = ds.foldl (fun a c => 10 * a + (c.toNat - 48)) n := by
  induction fuel with
  | zero => intro n ds h; omega
  | succ fuel ih =>
    intro n ds h
    rw [Nat.toDigitsCore]
    by_cases h0 : n / 10 = 0
    · simp only [h0, if_true, List.foldl_cons]
      rw [digitChar_toNat _ (Nat.mod_lt _ (by decide))]
      congr 1
      omega
    · simp only [h0, if_false]
      rw [ih (n / 10) _ (by omega), List.foldl_cons,
        digitChar_toNat _ (Nat.mod_lt _ (by decide))]
      congr 1
      omega

theorem decodeNat_fmtNat (n : Nat) : decodeNat (fmtNat n) = n := by
  unfold decodeNat fmtNat Nat.toDigits
  rw [toDigitsCore_decode (n + 1) n [] (by omega)]
  rfl

theorem fmtNat_injective : Function.Injective fmtNat := by
  intro a b h
  have := congrArg decodeNat h
  rwa [decodeNat_fmtNat, decodeNat_fmtNat] at this

theorem toDigitsCore_mem (fuel : Nat) : ∀ (n : Nat) (ds : Str) (c : Char),
    c ∈ Nat.toDigitsCore 10 fuel n ds → c ∈ ds ∨ ∃ m, m < 10 ∧ c = Nat.digitChar m := by
  induction fuel with
  | zero => intro n ds c h; left; simpa [Nat.toDigitsCore] using h
  | succ fuel ih =>
    intro n ds c h
    rw [Nat.toDigitsCore] at h
    by_cases h0 : n / 10 = 0
    · simp only [h0, if_true, List.mem_cons] at h
      rcases h with h | h
      · right; exact ⟨n % 10, Nat.mod_lt _ (by decide), h⟩
      · left; exact h
    · simp only [h0, if_false] at h
      rcases ih _ _ _ h with h | h
      · rcases List.mem_cons.1 h with h | h
        · right; exact ⟨n % 10, Nat.mod_lt _ (by decide), h⟩
        · left; exact h
      · right; exact h

theorem fmtNat_mem (n : Nat) (c : Char) (h : c ∈ fmtNat n) : ∃ m, m < 10 ∧ c = Nat.digitChar m := by
  rcases toDigitsCore_mem _ _ _ _ h with h | h
  · simp at h
  · exact h

theorem toDigitsCore_ne_nil (fuel : Nat) : ∀ (n : Nat) (ds : Str), 0 < fuel →
    Nat.toDigitsCore 10 fuel n ds ≠ [] := by
  induction fuel with
  | zero => intro n ds h; omega
  | succ fuel ih =>
    intro n ds _
    rw [Nat.toDigitsCore]
    by_cases h0 : n / 10 = 0
    · simp [h0]
    · simp only [h0, if_false]
      cases fuel with
      | zero => simp [Nat.toDigitsCore]
      | succ k => exact ih _ _ (by omega)

theorem fmtNat_ne_nil (n : Nat) : fmtNat n ≠ [] :=
  toDigitsCore_ne_nil _ _ _ (by omega)

theorem fmtInt_mem (p : Int) (c : Char) (h : c ∈ fmtInt p) : c ≠ '.' ∧ c ≠ '/' := by
  cases p with
  | ofNat n =>
    obtain ⟨m, hm, rfl⟩ := fmtNat_mem n c h
    exact ⟨(digitChar_not_sep m hm).1, (digitChar_not_sep m hm).2.2⟩
  | negSucc n =>
    rcases List.mem_cons.1 h with h | h
    · subst h; decide
    · obtain ⟨m, hm, rfl⟩ := fmtNat_mem _ c h
      exact ⟨(digitChar_not_sep m hm).1, (digitChar_not_sep m hm).2.2⟩

theorem fmtInt_injective : Function.Injective fmtInt := by
  intro a b h
  cases a with
  | ofNat m =>
    cases b with
    | ofNat n => simp only [fmtInt] at h; rw [fmtNat_injective h]
    | negSucc n =>
      exfalso
      simp only [fmtInt] at h
      have hm : '-' ∈ fmtNat m := by rw [h]; exact List.mem_cons_self _ _
      obtain ⟨k, hk, hc⟩ := fmtNat_mem m _ hm
      exact (digitChar_not_sep k hk).2.1 hc.symm
  | negSucc m =>
    cases b with
    | ofNat n =>
      exfalso
      simp only [fmtInt] at h
      have hm : '-' ∈ fmtNat n := by rw [← h]; exact List.mem_cons_self _ _
      obtain ⟨k, hk, hc⟩ := fmtNat_mem n _ hm
      exact (digitChar_not_sep k hk).2.1 hc.symm
    | negSucc n =>
      simp only [fmtInt, List.cons.injEq, true_and] at h
      have := fmtNat_injective h
      have : m = n := by omega
      rw [this]

/-- Two strings cut at their last `sep` agree piecewise. -/
theorem append_sep_inj (sep : Char) : ∀ (xs ys u v : Str), sep ∉ u → sep ∉ v →
    xs ++ sep :: u = ys ++ sep :: v → xs = ys ∧ u = v := by
  intro xs
  induction xs with
  | nil =>
    intro ys u v hu hv h
    cases ys with
    | nil => simpa using h
    | cons y ys =>
      exfalso
      simp only [List.nil_append, List.cons_append, List.cons.injEq] at h
      apply hu
      rw [h.2]
      simp
  | cons x xs ih =>
    intro ys u v hu hv h
    cases ys with
    | nil =>
      exfalso
      simp only [List.nil_append, List.cons_append, List.cons.injEq] at h
      apply hv
      rw [← h.2]
      simp
    | cons y ys =>
      simp only [List.cons_append, List.cons.injEq] at h
      obtain ⟨h1, h2⟩ := ih ys u v hu hv h.2
      exact ⟨by rw [h.1, h1], h2⟩

/-- C9: `SetDirName` sets `dirname` to `"_" + name + "." + procs`, with `path + "/"`
in front when `path` is not empty; and for one base path, equal `dirname`s come
from equal names and equal worker counts. -/
theorem SetDirName_unique (d1 d2 : Data) (path name1 name2 : Str) (procs1 procs2 : Int) :
    (d1.SetDirName path name1 procs1).dirname =
      (if path = [] then [] else path ++ "/".toList) ++
        ("_".toList ++ name1 ++ ".".toList ++ fmtInt procs1) ∧
    ((d1.SetDirName path name1 procs1).dirname = (d2.SetDirName path name2 procs2).dirname →
      name1 = name2 ∧ procs1 = procs2) := by
  constructor
  · unfold Data.SetDirName scratchName
    split <;> simp
  · intro h
    have hsn : scratchName name1 procs1 = scratchName name2 procs2 := by
      unfold Data.SetDirName at h
      by_cases hp : path = []
      · simpa [hp] using h
      · simpa [hp] using h
    simp only [scratchName, List.cons.injEq, true_and] at hsn
    obtain ⟨hn, hf⟩ := append_sep_inj '.' name1 name2 _ _
      (fun hc => (fmtInt_mem _ _ hc).1 rfl) (fun hc => (fmtInt_mem _ _ hc).1 rfl) hsn
    exact ⟨hn, fmtInt_injective hf⟩

/-- The statement of `SetDirName_unique` for `a.1` with 2 workers under `dl`, set on
two different values of `Data`. -/
theorem SetDirName_unique_witness :
    ((Data.mk [] 0 [] []).SetDirName "dl".toList "a.1".toList 2).dirname
      = ((Data.mk [] 7 [] []).SetDirName "dl".toList "a.1".toList 2).dirname ∧
    ((Data.mk [] 0 [] []).SetDirName "dl".toList "a.1".toList 2).dirname = "dl/_a.1.2".toList ∧
    ("a.1".toList = "a.1".toList ∧ (2 : Int) = 2) :=
  ⟨rfl, by decide,
    (SetDirName_unique (Data.mk [] 0 [] []) (Data.mk [] 7 [] []) "dl".toList "a.1".toList
      "a.1".toList 2 2).2 rfl⟩

/-! ## `URLFileName`: the search for the name -/

theorem originalLoop_of_ne_nil (token : List Str) (n i : Nat) (original : Str)
    (h : original ≠ []) : originalLoop token n i original = some (Res.ok original) := by
  cases n <;> simp [originalLoop, h]

/-- With the last `j` pieces empty and enough steps left, the first loop returns
the first non-empty piece from the end among those not yet looked at, and
faults when there is none. -/
theorem originalLoop_eq (token : List Str) : ∀ (n j : Nat), token.length < n + j → 0 < n →
    originalLoop token n (j + 1) [] =
      some (match (token.reverse.drop j).find? (fun s => decide (s ≠ [])) with
        | some s => Res.ok s
        | none => Res.fault) := by
  intro n
  induction n with
  | zero => intro j _ h; omega
  | succ n ih =>
    intro j hlen _
    by_cases hj : j < token.length
    · have hidx : (0 : Int) ≤ (token.length : Int) - ((j + 1 : Nat) : Int) ∧
          (token.length : Int) - ((j + 1 : Nat) : Int) < (token.length : Int) := by
        constructor <;> omega
      have htn : ((token.length : Int) - ((j + 1 : Nat) : Int)).toNat = token.length - 1 - j := by
        omega
      have hjr : j < token.reverse.length := by simpa using hj
      have hget : token.getD (token.length - 1 - j) [] = token.reverse[j] := by
        rw [List.getElem_reverse hjr, List.getD_eq_getElem]
      rw [originalLoop]
      simp only [if_true, hidx, and_self, htn, hget]
      rw [List.drop_eq_getElem_cons hjr, List.find?_cons]
      by_cases hne : token.reverse[j] = []
      · simp only [hne, ne_eq, not_true_eq_false, decide_False]
        exact ih (j + 1) (by omega) (by omega)
      · simp only [ne_eq, hne, not_false_eq_true, decide_True]
        exact originalLoop_of_ne_nil _ _ _ _ hne
    · have hidx : ¬ ((0 : Int) ≤ (token.length : Int) - ((j + 1 : Nat) : Int) ∧
          (token.length : Int) - ((j + 1 : Nat) : Int) < (token.length : Int)) := by
        omega
      rw [originalLoop]
      simp only [if_true, hidx, if_false]
      rw [List.drop_eq_nil_of_le (by simpa using Nat.le_of_not_lt hj)]
      rfl

theorem originalLoop_start (url : Str) (steps : Nat) (h : (stringsSplit '/' url).length < steps) :
    originalLoop (stringsSplit '/' url) steps 1 [] =
      some (match lastSegment url with
        | some s => Res.ok s
        | none => Res.fault) := by
  have := originalLoop_eq (stringsSplit '/' url) steps 0 (by omega) (by omega)
  simpa [lastSegment] using this

theorem lastSegment_isSome_iff (url : Str) :
    (∃ s, lastSegment url = some s) ↔ ∃ seg ∈ stringsSplit '/' url, seg ≠ [] := by
  unfold lastSegment
  rw [← Option.isSome_iff_exists, List.find?_isSome]
  simp

/-- C10: with steps enough for the pieces of the URL, the backward search of
`URLFileName` returns a name without an index outside the token list exactly when
some piece of the URL is not empty, the name is then the last non-empty piece, and
with every piece empty the search faults on an index below 0, as it does for the
URLs `""` and `"///"`. -/
theorem URLFileName_search_in_bounds (url : Str) (steps : Nat)
    (h : (stringsSplit '/' url).length < steps) :
    ((∃ s, originalLoop (stringsSplit '/' url) steps 1 [] = some (Res.ok s)) ↔
      ∃ seg ∈ stringsSplit '/' url, seg ≠ []) ∧
    (∀ s, originalLoop (stringsSplit '/' url) steps 1 [] = some (Res.ok s) →
      lastSegment url = some s) ∧
    ((∀ seg ∈ stringsSplit '/' url, seg = []) →
      originalLoop (stringsSplit '/' url) steps 1 [] = some Res.fault ∧
      ∀ fs targetDir, URLFileName steps fs targetDir url = some Res.fault) ∧
    (∀ fs targetDir, URLFileName 2 fs targetDir "".toList = some Res.fault) ∧
    (∀ fs targetDir, URLFileName 5 fs targetDir "///".toList = some Res.fault) := by
  have hst := originalLoop_start url steps h
  refine ⟨?_, ?_, ?_, ?_, ?_⟩
  · rw [← lastSegment_isSome_iff, hst]
    cases lastSegment url <;> simp
  · intro s hs
    rw [hst] at hs
    cases hl : lastSegment url with
    | none => simp [hl] at hs
    | some t => simp [hl] at hs; rw [hs]
  · intro hall
    have hnone : lastSegment url = none := by
      cases hl : lastSegment url with
      | none => rfl
      | some t =>
        exfalso
        obtain ⟨seg, hmem, hne⟩ := (lastSegment_isSome_iff url).1 ⟨t, hl⟩
        exact hne (hall seg hmem)
    have hf : originalLoop (stringsSplit '/' url) steps 1 [] = some Res.fault := by
      rw [hst, hnone]
    refine ⟨hf, ?_⟩
    intro fs targetDir
    simp only [URLFileName, hf]
  · intro fs targetDir; rfl
  · intro fs targetDir; rfl

/-! ## `URLFileName`: the unique name -/

/-- The names `original-1`, `original-2`, ... are pairwise different. -/
theorem suffixed_injective (original : Str) : Function.Injective (suffixed original) := by
  intro a b h
  unfold suffixed at h
  have h2 := List.append_cancel_left h
  simp only [List.cons.injEq, true_and] at h2
  have := fmtInt_injective h2
  simpa using this

theorem suffixed_ne_original (original : Str) (k : Nat) : suffixed original k ≠ original := by
  intro h
  have := congrArg List.length h
  simp [suffixed] at this

theorem statPath_injective (targetDir : Str) : Function.Injective (statPath targetDir) := by
  intro a b h
  unfold statPath at h
  by_cases ht : targetDir = []
  · simpa [ht] using h
  · simp only [ht, if_false] at h
    have := List.append_cancel_left h
    simpa using this

theorem find_mem_keys : ∀ (fs : FS) (p : Str), (FS.find fs p).isSome = true →
    p ∈ fs.map Prod.fst := by
  intro fs
  induction fs with
  | nil => intro p h; simp [FS.find] at h
  | cons e rest ih =>
    intro p h
    obtain ⟨q, n⟩ := e
    by_cases hq : q = p
    · exact List.mem_map.2 ⟨(q, n), List.mem_cons_self _ _, hq⟩
    · simp only [FS.find, hq, if_false] at h
      rw [List.map_cons]
      exact List.mem_cons_of_mem _ (ih p h)

theorem osStat_mem_keys (fs : FS) (p : Str) (h : osStat fs p = true) : p ∈ fs.map Prod.fst := by
  unfold osStat FS.get at h
  by_cases hp : p = []
  · simp [hp] at h
  · rw [if_neg hp] at h
    exact find_mem_keys fs p h

/-- Among the first `fs.length + 1` candidate names one is free. -/
theorem exists_free_candidate (fs : FS) (targetDir original : Str) :
    ∃ k, k ≤ fs.length ∧ osStat fs (statPath targetDir
      (if k = 0 then original else suffixed original k)) = false := by
  by_contra hcon
  push_neg at hcon
  let cand : Nat → Str := fun k => statPath targetDir (if k = 0 then original else suffixed original k)
  have hinj : Function.Injective cand := by
    intro a b hab
    have h := statPath_injective targetDir hab
    by_cases ha : a = 0
    · by_cases hb : b = 0
      · omega
      · simp only [ha, hb, if_true, if_false] at h
        exact absurd h.symm (suffixed_ne_original _ _)
    · by_cases hb : b = 0
      · simp only [ha, hb, if_true, if_false] at h
        exact absurd h (suffixed_ne_original _ _)
      · simp only [ha, hb, if_false] at h
        exact suffixed_injective original h
  have hnd : ((List.range (fs.length + 1)).map cand).Nodup :=
    (List.nodup_range _).map hinj
  have hsub : (List.range (fs.length + 1)).map cand ⊆ fs.map Prod.fst := by
    intro p hp
    obtain ⟨k, hk, rfl⟩ := List.mem_map.1 hp
    have hk2 : k ≤ fs.length := by
      have := List.mem_range.1 hk
      omega
    have := hcon k hk2
    apply osStat_mem_keys
    simpa using this
  have := (hnd.subperm hsub).length_le
  simp at this

/-- From candidate `j` on, with the candidates `j .. m-1` taken and `m` free, the
second loop returns candidate `m`. -/
theorem uniqueLoop_eq (fs : FS) (targetDir original : Str) (m : Nat)
    (hfree : osStat fs (statPath targetDir
      (if m = 0 then original else suffixed original m)) = false) :
    ∀ (n j : Nat), j ≤ m → m - j < n →
      (∀ k, j ≤ k → k < m → osStat fs (statPath targetDir
        (if k = 0 then original else suffixed original k)) = true) →
      uniqueLoop fs targetDir original n (j + 1) (if j = 0 then original else suffixed original j)
        = some (if m = 0 then original else suffixed original m) := by
  intro n
  induction n with
  | zero => intro j _ h; omega
  | succ n ih =>
    intro j hjm hn htaken
    rw [uniqueLoop]
    by_cases hj : j = m
    · subst hj
      simp [hfree]
    · have ht := htaken j (le_refl _) (by omega)
      simp only [ht, if_true]
      have := ih (j + 1) (by omega) (by omega) (fun k hk1 hk2 => htaken k (by omega) hk2)
      simpa using this

/-- C6: for a URL whose last non-empty segment is `original`, and steps enough for
the pieces of the URL and the entries of the file system, `URLFileName` returns a
name that `os.Stat` does not find in the target directory: `original` when that is
free, and otherwise `original-k` for the least `k ≥ 1` whose name is free. -/
theorem URLFileName_unique (steps : Nat) (fs : FS) (targetDir url original : Str)
    (hseg : lastSegment url = some original)
    (h1 : (stringsSplit '/' url).length < steps) (h2 : fs.length < steps) :
    ∃ name, URLFileName steps fs targetDir url = some (Res.ok name) ∧
      osStat fs (statPath targetDir name) = false ∧
      (osStat fs (statPath targetDir original) = false → name = original) ∧
      (osStat fs (statPath targetDir original) = true →
        ∃ k, 1 ≤ k ∧ name = suffixed original k ∧
          ∀ j, 1 ≤ j → j < k →
            osStat fs (statPath targetDir (suffixed original j)) = true) := by
  classical
  have hex : ∃ k, osStat fs (statPath targetDir
      (if k = 0 then original else suffixed original k)) = false := by
    obtain ⟨k, _, hk⟩ := exists_free_candidate fs targetDir original
    exact ⟨k, hk⟩
  have hm := Nat.find_spec hex
  have hmle : Nat.find hex ≤ fs.length := by
    obtain ⟨k, hk1, hk2⟩ := exists_free_candidate fs targetDir original
    exact le_trans (Nat.find_min' hex hk2) hk1
  have hmin : ∀ k, k < Nat.find hex → osStat fs (statPath targetDir
      (if k = 0 then original else suffixed original k)) = true := by
    intro k hk
    have := Nat.find_min hex hk
    simpa using this
  generalize Nat.find hex = m at hm hmle hmin
  have hloop := uniqueLoop_eq fs targetDir original m hm steps 0 (Nat.zero_le _) (by omega)
    (fun k _ hk => hmin k hk)
  simp only [if_true, Nat.zero_add] at hloop
  refine ⟨if m = 0 then original else suffixed original m, ?_, hm, ?_, ?_⟩
  · simp only [URLFileName, originalLoop_start url steps h1, hseg, hloop]
  · intro hfree
    by_cases h0 : m = 0
    · simp [h0]
    · exfalso
      have := hmin 0 (by omega)
      simp only [if_true] at this
      rw [hfree] at this
      exact Bool.false_ne_true this
  · intro htaken
    have h0 : m ≠ 0 := by
      intro h0
      rw [h0] at hm
      simp only [if_true] at hm
      rw [htaken] at hm
      exact Bool.false_ne_true hm.symm
    refine ⟨m, by omega, by simp [h0], ?_⟩
    intro j hj1 hj2
    have := hmin j hj2
    have hj0 : j ≠ 0 := by omega
    simpa [hj0] using this

/-- The statement of `URLFileName_unique` in a directory that already holds
`report.csv` and `report.csv-1`: the name returned is `report.csv-2`; with only
`report.csv` taken it is `report.csv-1`. -/
theorem URLFileName_unique_witness :
    (lastSegment "http://host/data/report.csv".toList = some "report.csv".toList ∧
      osStat [("dl".toList, Node.dir), ("dl/report.csv".toList, Node.file [1]),
        ("dl/report.csv-1".toList, Node.file [])]
        (statPath "dl".toList "report.csv".toList) = true) ∧
    URLFileName 8 [("dl".toList, Node.dir), ("dl/report.csv".toList, Node.file [1]),
        ("dl/report.csv-1".toList, Node.file [])] "dl".toList
        "http://host/data/report.csv".toList = some (Res.ok "report.csv-2".toList) ∧
    URLFileName 8 [("dl".toList, Node.dir), ("dl/report.csv".toList, Node.file [1])]
        "dl".toList "http://host/data/report.csv".toList
        = some (Res.ok "report.csv-1".toList) ∧
    ∃ name, URLFileName 8 [("dl".toList, Node.dir), ("dl/report.csv".toList, Node.file [1]),
        ("dl/report.csv-1".toList, Node.file [])] "dl".toList
        "http://host/data/report.csv".toList = some (Res.ok name) ∧
      osStat [("dl".toList, Node.dir), ("dl/report.csv".toList, Node.file [1]),
        ("dl/report.csv-1".toList, Node.file [])] (statPath "dl".toList name) = false :=
  ⟨⟨by decide, by decide⟩, by decide, by decide,
    (URLFileName_unique 8 [("dl".toList, Node.dir), ("dl/report.csv".toList, Node.file [1]),
        ("dl/report.csv-1".toList, Node.file [])] "dl".toList
        "http://host/data/report.csv".toList "report.csv".toList (by decide) (by decide)
        (by decide)).imp (fun _ h => ⟨h.1, h.2.1⟩)⟩

/-- The statement of `URLFileName_search_in_bounds` at a URL that ends in `/`: the
search skips the empty last piece and stops at `report.csv`. -/
theorem URLFileName_search_in_bounds_witness :
    (stringsSplit '/' "http://host/report.csv/".toList).length < 8 ∧
    originalLoop (stringsSplit '/' "http://host/report.csv/".toList) 8 1 []
      = some (Res.ok "report.csv".toList) ∧
    lastSegment "http://host/report.csv/".toList = some "report.csv".toList :=
  ⟨by decide, by decide,
    (URLFileName_search_in_bounds "http://host/report.csv/".toList 8 (by decide)).2.1
      "report.csv".toList (by decide)⟩

/-! ## `ProgressBar` -/

theorem toInt64_le (x : Nat) (hx : x < uintMod) : toInt64 x ≤ (x : Int) := by
  unfold toInt64
  rw [Nat.mod_eq_of_lt hx]
  split
  · exact le_refl _
  · unfold uintMod
    omega

theorem toInt64_of_lt (x : Nat) (hx : (x : Int) < 2 ^ 63) : toInt64 x = (x : Int) := by
  have hx2 : x < 2 ^ 63 := by exact_mod_cast hx
  have hlt : x < uintMod := by unfold uintMod; omega
  unfold toInt64
  rw [Nat.mod_eq_of_lt hlt, if_pos hx2]

/-- Over polls that succeed with the sums given, the loop of `ProgressBar` reports
the sums below `filesize` up to the first one that is not, then `filesize`. -/
theorem progressLoop_polls (d : Data) (filesize : Int) (dirname : Str) :
    ∀ (fss : List FS) (sums : List Int) (bar : List Int),
      fss.map (fun fs => d.Progress fs dirname) = sums.map (fun s => Res.ok (s, none)) →
      progressLoop d filesize dirname (fss.map Tick.poll) bar =
        (bar ++ sums.takeWhile (fun s => decide (s < filesize)) ++
            (if sums.all (fun s => decide (s < filesize)) then [] else [filesize]),
          if sums.all (fun s => decide (s < filesize)) then Exit.running
          else Exit.nilFinished) := by
  intro fss
  induction fss with
  | nil =>
    intro sums bar h
    cases sums with
    | nil => simp [progressLoop]
    | cons s r => simp at h
  | cons fs rest ih =>
    intro sums bar h
    cases sums with
    | nil => simp at h
    | cons s r =>
      simp only [List.map_cons, List.cons.injEq] at h
      obtain ⟨h1, h2⟩ := h
      simp only [List.map_cons, progressLoop, h1]
      by_cases hs : s < filesize
      · simp only [hs, if_true, ih r (bar ++ [s]) h2, List.takeWhile_cons, decide_True,
          List.all_cons, Bool.true_and, List.append_assoc, List.singleton_append]
      · simp only [hs, if_false, List.takeWhile_cons, decide_False, List.all_cons,
          Bool.false_and, List.append_nil]
        simp

theorem takeWhile_split (p : Int → Bool) : ∀ (pre : List Int) (s : Int) (post : List Int),
    (∀ x ∈ pre, p x = true) → p s = false →
    (pre ++ s :: post).takeWhile p = pre ∧ (pre ++ s :: post).all p = false := by
  intro pre
  induction pre with
  | nil => intro s post _ hs; simp [List.takeWhile_cons, hs]
  | cons a pre ih =>
    intro s post hpre hs
    have ha : p a = true := hpre a (List.mem_cons_self _ _)
    obtain ⟨h1, h2⟩ := ih s post (fun x hx => hpre x (List.mem_cons_of_mem _ hx)) hs
    constructor
    · simp only [List.cons_append, List.takeWhile_cons, ha, if_true, h1]
    · simp only [List.cons_append, List.all_cons, ha, Bool.true_and, h2]

/-- C7: for a `uint` file size and polls that succeed with non-decreasing `int64`
sums, the values `ProgressBar` reports are non-decreasing and at most the file
size; and at the first sum at or above the file size it reports exactly the file
size, finishes and returns `nil`. -/
theorem ProgressBar_monotone_clamped (d : Data) (fss : List FS) (sums : List Int)
    (hsize : d.filesize < uintMod)
    (hpoll : fss.map (fun fs => d.Progress fs d.dirname) = sums.map (fun s => Res.ok (s, none)))
    (hmono : sums.Pairwise (fun a b => a ≤ b)) (hint : ∀ s ∈ sums, s < 2 ^ 63) :
    (d.ProgressBar (fss.map Tick.poll)).1.Pairwise (fun a b => a ≤ b) ∧
    (∀ v ∈ (d.ProgressBar (fss.map Tick.poll)).1, v ≤ (d.filesize : Int)) ∧
    (∀ pre s post, sums = pre ++ s :: post → (∀ x ∈ pre, x < (d.filesize : Int)) →
      (d.filesize : Int) ≤ s →
      d.ProgressBar (fss.map Tick.poll) = (pre ++ [(d.filesize : Int)], Exit.nilFinished)) := by
  have hrun := progressLoop_polls d (toInt64 d.filesize) d.dirname fss sums [] hpoll
  have hle := toInt64_le d.filesize hsize
  refine ⟨?_, ?_, ?_⟩
  · unfold Data.ProgressBar
    rw [hrun]
    simp only [List.nil_append]
    rw [List.pairwise_append]
    refine ⟨hmono.sublist (List.takeWhile_sublist _), ?_, ?_⟩
    · split <;> simp
    · intro a ha b hb
      have := List.mem_takeWhile_imp ha
      split at hb
      · simp at hb
      · simp only [List.mem_singleton] at hb
        subst hb
        have : a < toInt64 d.filesize := by simpa using this
        omega
  · intro v hv
    unfold Data.ProgressBar at hv
    rw [hrun] at hv
    simp only [List.nil_append, List.mem_append] at hv
    rcases hv with hv | hv
    · have := List.mem_takeWhile_imp hv
      have : v < toInt64 d.filesize := by simpa using this
      omega
    · split at hv
      · simp at hv
      · simp only [List.mem_singleton] at hv
        omega
  · intro pre s post hsplit hpre hs
    have hs63 : s < 2 ^ 63 := hint s (by rw [hsplit]; simp)
    have hF : toInt64 d.filesize = (d.filesize : Int) := toInt64_of_lt _ (by omega)
    obtain ⟨h1, h2⟩ := takeWhile_split (fun x => decide (x < toInt64 d.filesize)) pre s post
      (by intro x hx; simpa [hF] using hpre x hx) (by simpa [hF] using hs)
    unfold Data.ProgressBar
    rw [hrun, hsplit, h1, h2, hF]
    simp

/-- The statement of `ProgressBar_monotone_clamped` for a file of 3 bytes whose
scratch directory holds 2 bytes at the first poll and 3 at the second. -/
theorem ProgressBar_monotone_clamped_witness :
    ([[("_f.2".toList, Node.dir), ("_f.2/f.2.0".toList, Node.file [1, 2])],
      [("_f.2".toList, Node.dir), ("_f.2/f.2.0".toList, Node.file [1, 2]),
        ("_f.2/f.2.1".toList, Node.file [3])]].map
        (fun fs => (Data.mk "f".toList 3 "_f.2".toList "f".toList).Progress fs "_f.2".toList)
      = [2, 3].map (fun s => Res.ok (s, none))) ∧
    (Data.mk "f".toList 3 "_f.2".toList "f".toList).ProgressBar
      ([[("_f.2".toList, Node.dir), ("_f.2/f.2.0".toList, Node.file [1, 2])],
        [("_f.2".toList, Node.dir), ("_f.2/f.2.0".toList, Node.file [1, 2]),
          ("_f.2/f.2.1".toList, Node.file [3])]].map Tick.poll)
      = ([2] ++ [((3 : Nat) : Int)], Exit.nilFinished) :=
  ⟨by decide,
    (ProgressBar_monotone_clamped (Data.mk "f".toList 3 "_f.2".toList "f".toList)
      [[("_f.2".toList, Node.dir), ("_f.2/f.2.0".toList, Node.file [1, 2])],
        [("_f.2".toList, Node.dir), ("_f.2/f.2.0".toList, Node.file [1, 2]),
          ("_f.2/f.2.1".toList, Node.file [3])]]
      [2, 3] (by decide) (by decide) (by decide) (by decide)).2.2 [2] 3 [] rfl (by decide)
      (by decide)⟩

/-! ## `subDirsize` on a walk that fails -/

/-- A call that carries both a file info and an error: the callback returns the
error, the walk ends with it and `subDirsize` returns it as a value. -/
theorem walkSum_error_with_info (size : Int) (p : Str) (info : FileInfo) (err : Str)
    (rest : List Visit) :
    ∃ size1, walkSum size ({ path := p, info := some info, err := some err } :: rest)
      = Res.ok (size1, some err) := by
  simp [walkSum, walkFn]

/-- C8: when the scratch directory is absent the walk hands the callback an error
and a nil file info; the callback calls `IsDir` on it, so `subDirsize` and
`Progress` fault, and `ProgressBar` ends in that fault at its first poll: no
error is returned to the caller. -/
theorem ProgressBar_faults_on_missing_dir (d : Data) (fs : FS) (rest : List Tick)
    (h : FS.get fs d.dirname = none) :
    (∃ err, filepathWalk fs d.dirname = [{ path := d.dirname, info := none, err := some err }]) ∧
    subDirsize fs d.dirname = Res.fault ∧
    d.Progress fs d.dirname = Res.fault ∧
    d.ProgressBar (Tick.poll fs :: rest) = ([], Exit.fault) := by
  have hw : subDirsize fs d.dirname = Res.fault := by
    simp [subDirsize, filepathWalk, h, walkSum, walkFn]
  refine ⟨?_, hw, hw, ?_⟩
  · simp [filepathWalk, h]
  · simp only [Data.ProgressBar, progressLoop, Data.Progress, hw]

/-- The statement of `ProgressBar_faults_on_missing_dir` on an empty file system,
where the claim asks for the error wrapped with `failed to get directory size`. -/
theorem ProgressBar_faults_on_missing_dir_witness :
    FS.get [] (Data.mk "f".toList 3 "_f.2".toList "f".toList).dirname = none ∧
    (Data.mk "f".toList 3 "_f.2".toList "f".toList).ProgressBar [Tick.poll []]
      = ([], Exit.fault) ∧
    ¬ ∃ err, ((Data.mk "f".toList 3 "_f.2".toList "f".toList).ProgressBar [Tick.poll []]).2
      = Exit.error (errorsWrap err msgDirSize) :=
  ⟨rfl,
    (ProgressBar_faults_on_missing_dir (Data.mk "f".toList 3 "_f.2".toList "f".toList) [] []
      rfl).2.2.2,
    by
      rw [(ProgressBar_faults_on_missing_dir (Data.mk "f".toList 3 "_f.2".toList "f".toList)
        [] [] rfl).2.2.2]
      rintro ⟨err, h⟩
      cases h⟩

/-! ## The file-system table -/

theorem FS.find_filter (f : Str → Bool) : ∀ (fs : FS) (q : Str),
    FS.find (fs.filter (fun e => f e.1)) q = if f q = true then FS.find fs q else none := by
  intro fs
  induction fs with
  | nil => intro q; simp [FS.find]
  | cons e rest ih =>
    intro q
    obtain ⟨p, n⟩ := e
    by_cases hp : f p = true
    · have hfil : List.filter (fun e => f e.1) ((p, n) :: rest)
          = (p, n) :: List.filter (fun e => f e.1) rest := List.filter_cons_of_pos hp
      rw [hfil, FS.find, FS.find]
      by_cases hpq : p = q
      · subst hpq; simp [hp]
      · simp only [hpq, if_false]; exact ih q
    · have hfil : List.filter (fun e => f e.1) ((p, n) :: rest)
          = List.filter (fun e => f e.1) rest := List.filter_cons_of_neg hp
      rw [hfil, ih q, FS.find]
      by_cases hpq : p = q
      · subst hpq; simp [hp]
      · simp only [hpq, if_false]

theorem FS.get_nil (fs : FS) : FS.get fs [] = none := by
  simp [FS.get]

theorem FS.ne_nil_of_get (fs : FS) (p : Str) (n : Node) (h : FS.get fs p = some n) : p ≠ [] := by
  intro hp
  rw [hp, FS.get_nil] at h
  exact Option.noConfusion h

theorem FS.get_filter (f : Str → Bool) (fs : FS) (q : Str) :
    FS.get (fs.filter (fun e => f e.1)) q = if f q = true then FS.get fs q else none := by
  unfold FS.get
  by_cases hq : q = []
  · simp [hq]
  · rw [if_neg hq, if_neg hq, FS.find_filter]

theorem FS.get_erase (fs : FS) (p q : Str) :
    FS.get (FS.erase fs p) q = if q = p then none else FS.get fs q := by
  unfold FS.erase
  rw [FS.get_filter (fun x => decide (x ≠ p)) fs q]
  by_cases h : q = p <;> simp [h]

theorem FS.get_put (fs : FS) (p q : Str) (n : Node) (hp : p ≠ []) :
    FS.get (FS.put fs p n) q = if q = p then some n else FS.get fs q := by
  by_cases h : q = p
  · subst h
    simp [FS.get, FS.put, FS.find, hp]
  · have h2 : ¬ p = q := fun hc => h hc.symm
    have herase := FS.get_erase fs p q
    rw [if_neg h] at herase
    rw [if_neg h, ← herase]
    unfold FS.get FS.put
    by_cases hq : q = []
    · simp [hq]
    · simp [hq, FS.find, h2]

theorem get_osRemoveAll (fs : FS) (p : Str) :
    ∃ fs2, osRemoveAll fs p = Except.ok fs2 ∧
      ∀ q, FS.get fs2 q
        = if p ≠ [] ∧ (q = p ∨ isBelow p q = true) then none else FS.get fs q := by
  by_cases hp : p = []
  · refine ⟨fs, by rw [osRemoveAll, if_pos hp], ?_⟩
    intro q
    simp [hp]
  · refine ⟨fs.filter (fun e => decide (e.1 ≠ p) && !isBelow p e.1),
      by rw [osRemoveAll, if_neg hp], ?_⟩
    intro q
    rw [FS.get_filter (fun x => decide (x ≠ p) && !isBelow p x) fs q]
    by_cases h1 : q = p
    · simp [h1, hp]
    · by_cases h2 : isBelow p q = true
      · simp [h1, h2, hp]
      · simp [h1, h2, hp]

/-! ## Chunk paths -/

theorem chunkPath_injective (d : Data) (procs : Int) : Function.Injective (chunkPath d procs) := by
  intro a b h
  unfold chunkPath at h
  have h1 := List.append_cancel_left h
  simp only [List.cons.injEq, true_and] at h1
  have h2 := List.append_cancel_left h1
  simp only [List.cons.injEq, true_and] at h2
  have h3 := List.append_cancel_left h2
  simp only [List.cons.injEq, true_and] at h3
  have := fmtInt_injective h3
  simpa using this

theorem chunkPath_isBelow (d : Data) (procs : Int) (i : Nat) :
    isBelow d.dirname (chunkPath d procs i) = true := by
  unfold isBelow chunkPath
  rw [List.isPrefixOf_iff_prefix]
  exact ⟨d.filename ++ '.' :: (fmtInt procs ++ '.' :: fmtInt (Int.ofNat i)), by simp⟩

theorem chunkPath_ne_dirname (d : Data) (procs : Int) (i : Nat) :
    chunkPath d procs i ≠ d.dirname := by
  intro h
  have := congrArg List.length h
  simp [chunkPath] at this

theorem chunkPath_ne_of_not_below (d : Data) (procs : Int) (i : Nat) (p : Str)
    (h : isBelow d.dirname p = false) : p ≠ chunkPath d procs i := by
  intro hc
  rw [hc, chunkPath_isBelow] at h
  exact Bool.noConfusion h

/-! ## The loop of `BindwithFiles` -/

/-- The first `m` turns of the loop, on chunks that are regular files and a
destination that is none of them: the loop goes on from index `i + m` with the
chunks appended to the destination in index order and removed, and every other
path as before. -/
theorem bindLoop_prefix (d : Data) (procs : Int) (c : Nat → List Nat) (rest : Nat) :
    ∀ (m i : Nat) (fs : FS) (acc : List Nat),
      FS.get fs d.fullfilename = some (Node.file acc) →
      (∀ j, i ≤ j → j < i + m → d.fullfilename ≠ chunkPath d procs j) →
      (∀ j, i ≤ j → j < i + m → FS.get fs (chunkPath d procs j) = some (Node.file (c j))) →
      ∃ fs1, bindLoop d procs (m + rest) i fs = bindLoop d procs rest (i + m) fs1 ∧
        FS.get fs1 d.fullfilename
          = some (Node.file (acc ++ ((List.range' i m).map c).flatten)) ∧
        (∀ j, i ≤ j → j < i + m → FS.get fs1 (chunkPath d procs j) = none) ∧
        (∀ p, p ≠ d.fullfilename → (∀ j, i ≤ j → j < i + m → p ≠ chunkPath d procs j) →
          FS.get fs1 p = FS.get fs p) := by
  intro m
  induction m with
  | zero =>
    intro i fs acc hfull _ _
    refine ⟨fs, by simp, by simpa using hfull, ?_, ?_⟩
    · intro j h1 h2; omega
    · intro p _ _; rfl
  | succ m ih =>
    intro i fs acc hfull hne hchunks
    have hci := hchunks i (le_refl _) (by omega)
    have hnei := hne i (le_refl _) (by omega)
    have hfne : d.fullfilename ≠ [] := FS.ne_nil_of_get fs _ _ hfull
    have hopen : osOpen fs (chunkPath d procs i) = Except.ok (Node.file (c i)) := by
      simp [osOpen, hci]
    have hcopy : ioCopy fs d.fullfilename (Node.file (c i))
        = FS.put fs d.fullfilename (Node.file (acc ++ c i)) := by
      simp [ioCopy, hfull, Node.bytes]
    have hget1 : FS.get (FS.put fs d.fullfilename (Node.file (acc ++ c i)))
        (chunkPath d procs i) = some (Node.file (c i)) := by
      rw [FS.get_put _ _ _ _ hfne, if_neg (fun hc => hnei hc.symm), hci]
    have hrem : osRemove (FS.put fs d.fullfilename (Node.file (acc ++ c i)))
        (chunkPath d procs i)
        = Except.ok (FS.erase (FS.put fs d.fullfilename (Node.file (acc ++ c i)))
            (chunkPath d procs i)) := by
      simp [osRemove, hget1]
    have hstep : bindLoop d procs (m + 1 + rest) i fs
        = bindLoop d procs (m + rest) (i + 1)
            (FS.erase (FS.put fs d.fullfilename (Node.file (acc ++ c i)))
              (chunkPath d procs i)) := by
      have : m + 1 + rest = (m + rest) + 1 := by omega
      rw [this, bindLoop]
      simp only [hopen, hcopy, hrem]
    have hget2 : ∀ p, FS.get (FS.erase (FS.put fs d.fullfilename (Node.file (acc ++ c i)))
        (chunkPath d procs i)) p
        = if p = chunkPath d procs i then none
          else if p = d.fullfilename then some (Node.file (acc ++ c i)) else FS.get fs p := by
      intro p
      rw [FS.get_erase, FS.get_put _ _ _ _ hfne]
    obtain ⟨fs1, hrun, hdst, hgone, hframe⟩ := ih (i + 1)
      (FS.erase (FS.put fs d.fullfilename (Node.file (acc ++ c i))) (chunkPath d procs i))
      (acc ++ c i)
      (by rw [hget2, if_neg hnei, if_pos rfl])
      (fun j h1 h2 => hne j (by omega) (by omega))
      (fun j h1 h2 => by
        have hji : chunkPath d procs j ≠ chunkPath d procs i := fun hc => by
          have := chunkPath_injective d procs hc
          omega
        rw [hget2, if_neg hji, if_neg (fun hc => hne j (by omega) (by omega) hc.symm)]
        exact hchunks j (by omega) (by omega))
    refine ⟨fs1, ?_, ?_, ?_, ?_⟩
    · rw [hstep, hrun]
      congr 1
      omega
    · rw [hdst, List.range'_succ]
      simp [List.append_assoc]
    · intro j h1 h2
      by_cases hji : j = i
      · subst hji
        rw [hframe (chunkPath d procs j) (fun hc => hnei hc.symm)
          (fun k hk1 _ hc => by have := chunkPath_injective d procs hc; omega)]
        rw [hget2, if_pos rfl]
      · exact hgone j (by omega) (by omega)
    · intro p hp hpc
      rw [hframe p hp (fun j h1 h2 => hpc j (by omega) (by omega))]
      rw [hget2, if_neg (hpc i (le_refl _) (by omega)), if_neg hp]

/-! ## `BindwithFiles` -/

theorem osCreate_ok (fs : FS) (p : Str) (hname : p ≠ [])
    (hnodir : FS.get fs p ≠ some Node.dir) (hparent : FS.parentOk fs p = true) :
    osCreate fs p = Except.ok (FS.put fs p (Node.file [])) := by
  simp [osCreate, hname, hnodir, hparent]

/-- C1, amended: when the destination can be created (a non-empty path that is not
a directory, in a directory that exists) and lies outside the scratch directory,
and every chunk `0 .. N-1` is a regular file, `BindwithFiles(N)` returns no error;
afterwards the destination holds the chunks concatenated in index order, no chunk
file exists and the scratch directory is gone. -/
theorem BindwithFiles_merges (d : Data) (procs : Int) (fs : FS) (c : Nat → List Nat)
    (hname : d.fullfilename ≠ []) (hnodir : FS.get fs d.fullfilename ≠ some Node.dir)
    (hparent : FS.parentOk fs d.fullfilename = true)
    (hout : d.fullfilename ≠ d.dirname ∧ isBelow d.dirname d.fullfilename = false)
    (hchunks : ∀ i, i < procs.toNat →
      FS.get fs (chunkPath d procs i) = some (Node.file (c i))) :
    ∃ fs1, d.BindwithFiles procs fs = (none, fs1) ∧
      FS.get fs1 d.fullfilename
        = some (Node.file (((List.range procs.toNat).map c).flatten)) ∧
      (∀ i, i < procs.toNat → FS.get fs1 (chunkPath d procs i) = none) ∧
      FS.get fs1 d.dirname = none := by
  have hne : ∀ j, d.fullfilename ≠ chunkPath d procs j :=
    fun j => chunkPath_ne_of_not_below d procs j _ hout.2
  obtain ⟨fs1, hrun, hdst, hgone, _⟩ := bindLoop_prefix d procs c 0 procs.toNat 0
    (FS.put fs d.fullfilename (Node.file [])) []
    (by rw [FS.get_put _ _ _ _ hname, if_pos rfl])
    (fun j _ _ => hne j)
    (fun j _ h2 => by
      rw [FS.get_put _ _ _ _ hname, if_neg (fun hc => hne j hc.symm)]
      exact hchunks j (by omega))
  obtain ⟨fs2, hrm, hget⟩ := get_osRemoveAll fs1 d.dirname
  refine ⟨fs2, ?_, ?_, ?_, ?_⟩
  · simp only [Data.BindwithFiles, osCreate_ok fs _ hname hnodir hparent]
    simp only [Nat.add_zero, Nat.zero_add] at hrun
    rw [hrun]
    simp only [bindLoop, hrm]
  · rw [hget, if_neg (by simp [hout.1, hout.2]), hdst, List.range_eq_range']
    simp
  · intro i hi
    rw [hget]
    split
    · rfl
    · exact hgone i (Nat.zero_le _) (by omega)
  · rw [hget]
    split
    · rfl
    · rename_i hcond
      have : d.dirname = [] := by
        by_contra hd
        exact hcond ⟨hd, Or.inl rfl⟩
      rw [this]
      exact FS.get_nil fs1

/-- C5, amended: when the destination can be created and lies outside the scratch
directory, the chunks `0 .. k-1` are regular files and chunk `k < N` does not
exist, `BindwithFiles(N)` returns the error of the failed open wrapped with
`failed to open <path of chunk k> in download location`; the destination then
holds the chunks `0 .. k-1` concatenated in index order, these chunks are gone,
and the later chunks, the scratch directory and everything else below it are as
before. -/
theorem BindwithFiles_missing_chunk (d : Data) (procs : Int) (fs : FS) (c : Nat → List Nat)
    (k : Nat)
    (hname : d.fullfilename ≠ []) (hnodir : FS.get fs d.fullfilename ≠ some Node.dir)
    (hparent : FS.parentOk fs d.fullfilename = true)
    (hout : d.fullfilename ≠ d.dirname ∧ isBelow d.dirname d.fullfilename = false)
    (hk : k < procs.toNat)
    (hchunks : ∀ i, i < k → FS.get fs (chunkPath d procs i) = some (Node.file (c i)))
    (hmiss : FS.get fs (chunkPath d procs k) = none) :
    ∃ fs1 cause, d.BindwithFiles procs fs
        = (some (errorsWrap cause (msgOpen (chunkPath d procs k))), fs1) ∧
      FS.get fs1 d.fullfilename = some (Node.file (((List.range k).map c).flatten)) ∧
      (∀ i, i < k → FS.get fs1 (chunkPath d procs i) = none) ∧
      (∀ j, k < j → FS.get fs1 (chunkPath d procs j) = FS.get fs (chunkPath d procs j)) ∧
      FS.get fs1 d.dirname = FS.get fs d.dirname ∧
      (∀ p, isBelow d.dirname p = true → (∀ i, i < k → p ≠ chunkPath d procs i) →
        FS.get fs1 p = FS.get fs p) := by
  have hne : ∀ j, d.fullfilename ≠ chunkPath d procs j :=
    fun j => chunkPath_ne_of_not_below d procs j _ hout.2
  obtain ⟨fs1, hrun, hdst, hgone, hframe⟩ := bindLoop_prefix d procs c
    (procs.toNat - k - 1 + 1) k 0 (FS.put fs d.fullfilename (Node.file [])) []
    (by rw [FS.get_put _ _ _ _ hname, if_pos rfl])
    (fun j _ _ => hne j)
    (fun j _ h2 => by
      rw [FS.get_put _ _ _ _ hname, if_neg (fun hc => hne j hc.symm)]
      exact hchunks j (by omega))
  have hframe2 : ∀ p, p ≠ d.fullfilename → (∀ i, i < k → p ≠ chunkPath d procs i) →
      FS.get fs1 p = FS.get fs p := by
    intro p hp hpc
    rw [hframe p hp (fun j _ h2 => hpc j (by omega)), FS.get_put _ _ _ _ hname, if_neg hp]
  have hk1 : FS.get fs1 (chunkPath d procs k) = none := by
    rw [hframe2 _ (fun hc => hne k hc.symm)
      (fun i hi hc => by have := chunkPath_injective d procs hc; omega)]
    exact hmiss
  refine ⟨fs1, "open ".toList ++ chunkPath d procs k ++ ": no such file or directory".toList,
    ?_, ?_, ?_, ?_, ?_, ?_⟩
  · simp only [Data.BindwithFiles, osCreate_ok fs _ hname hnodir hparent]
    have hN : procs.toNat = k + (procs.toNat - k - 1 + 1) := by omega
    rw [hN, hrun]
    simp only [Nat.zero_add, bindLoop, osOpen, hk1]
  · rw [hdst, List.range_eq_range']
    simp
  · intro i hi
    exact hgone i (by omega) (by omega)
  · intro j hj
    exact hframe2 _ (fun hc => hne j hc.symm)
      (fun i hi hc => by have := chunkPath_injective d procs hc; omega)
  · exact hframe2 _ (fun hc => hout.1 hc.symm)
      (fun i _ hc => chunkPath_ne_dirname d procs i hc.symm)
  · intro p hp hpc
    exact hframe2 p (fun hc => by rw [hc, hout.2] at hp; exact Bool.noConfusion hp) hpc

/-- The statement of `BindwithFiles_merges` for two chunks `[1, 2]` and `[3]` of the
file `f` under `_f.2`: the merge returns no error and leaves only `f` with the
bytes `[1, 2, 3]`. -/
theorem BindwithFiles_merges_witness :
    (∀ i, i < (2 : Int).toNat →
      FS.get [("_f.2".toList, Node.dir), ("_f.2/f.2.0".toList, Node.file [1, 2]),
          ("_f.2/f.2.1".toList, Node.file [3])]
        (chunkPath (Data.mk "f".toList 3 "_f.2".toList "f".toList) 2 i)
        = some (Node.file (if i = 0 then [1, 2] else [3]))) ∧
    (Data.mk "f".toList 3 "_f.2".toList "f".toList).BindwithFiles 2
        [("_f.2".toList, Node.dir), ("_f.2/f.2.0".toList, Node.file [1, 2]),
          ("_f.2/f.2.1".toList, Node.file [3])]
      = (none, [("f".toList, Node.file [1, 2, 3])]) ∧
    ∃ fs1, (Data.mk "f".toList 3 "_f.2".toList "f".toList).BindwithFiles 2
        [("_f.2".toList, Node.dir), ("_f.2/f.2.0".toList, Node.file [1, 2]),
          ("_f.2/f.2.1".toList, Node.file [3])] = (none, fs1) ∧
      FS.get fs1 "f".toList = some (Node.file [1, 2, 3]) :=
  ⟨by decide, by decide,
    (BindwithFiles_merges (Data.mk "f".toList 3 "_f.2".toList "f".toList) 2
      [("_f.2".toList, Node.dir), ("_f.2/f.2.0".toList, Node.file [1, 2]),
        ("_f.2/f.2.1".toList, Node.file [3])]
      (fun i => if i = 0 then [1, 2] else [3])
      (by decide) (by decide) (by decide) (by decide) (by decide)).imp
      (fun _ h => ⟨h.1, h.2.1⟩)⟩

/-- C1 as stated fails. With chunk 0 present and the destination path `out` an
existing directory, `BindwithFiles(1)` returns the error of `os.Create`. With
chunk 0 present and the destination `_f.1/f` inside the scratch directory, it
returns no error but the destination is removed with the scratch directory. -/
theorem BindwithFiles_merges_counterexample :
    (FS.get [("_f.1".toList, Node.dir), ("_f.1/f.1.0".toList, Node.file [1, 2, 3]),
          ("out".toList, Node.dir)]
        (chunkPath (Data.mk "f".toList 3 "_f.1".toList "out".toList) 1 0)
        = some (Node.file [1, 2, 3]) ∧
      (Data.mk "f".toList 3 "_f.1".toList "out".toList).BindwithFiles 1
        [("_f.1".toList, Node.dir), ("_f.1/f.1.0".toList, Node.file [1, 2, 3]),
          ("out".toList, Node.dir)]
        = (some "failed to create a file in download location: open out: is a directory".toList,
            [("_f.1".toList, Node.dir), ("_f.1/f.1.0".toList, Node.file [1, 2, 3]),
              ("out".toList, Node.dir)])) ∧
    (FS.get [("_f.1".toList, Node.dir), ("_f.1/f.1.0".toList, Node.file [1, 2, 3])]
        (chunkPath (Data.mk "f".toList 3 "_f.1".toList "_f.1/f".toList) 1 0)
        = some (Node.file [1, 2, 3]) ∧
      (Data.mk "f".toList 3 "_f.1".toList "_f.1/f".toList).BindwithFiles 1
        [("_f.1".toList, Node.dir), ("_f.1/f.1.0".toList, Node.file [1, 2, 3])]
        = (none, []) ∧
      FS.get ((Data.mk "f".toList 3 "_f.1".toList "_f.1/f".toList).BindwithFiles 1
        [("_f.1".toList, Node.dir), ("_f.1/f.1.0".toList, Node.file [1, 2, 3])]).2
        "_f.1/f".toList ≠ some (Node.file [1, 2, 3])) := by
  decide

/-- The statement of `BindwithFiles_missing_chunk` for three workers with chunk 0
present, chunk 1 missing and chunk 2 present: the error names `_f.3/f.3.1`, the
destination holds chunk 0 only, chunk 0 is gone and chunk 2 is still there. -/
theorem BindwithFiles_missing_chunk_witness :
    (Data.mk "f".toList 3 "_f.3".toList "f".toList).BindwithFiles 3
        [("_f.3".toList, Node.dir), ("_f.3/f.3.0".toList, Node.file [1]),
          ("_f.3/f.3.2".toList, Node.file [3])]
      = (some ("failed to open _f.3/f.3.1 in download location: " ++
            "open _f.3/f.3.1: no such file or directory").toList,
          [("f".toList, Node.file [1]), ("_f.3".toList, Node.dir),
            ("_f.3/f.3.2".toList, Node.file [3])]) ∧
    ∃ fs1 cause, (Data.mk "f".toList 3 "_f.3".toList "f".toList).BindwithFiles 3
        [("_f.3".toList, Node.dir), ("_f.3/f.3.0".toList, Node.file [1]),
          ("_f.3/f.3.2".toList, Node.file [3])]
        = (some (errorsWrap cause
            (msgOpen (chunkPath (Data.mk "f".toList 3 "_f.3".toList "f".toList) 3 1))), fs1) ∧
      FS.get fs1 "f".toList = some (Node.file [1]) :=
  ⟨by decide,
    (BindwithFiles_missing_chunk (Data.mk "f".toList 3 "_f.3".toList "f".toList) 3
      [("_f.3".toList, Node.dir), ("_f.3/f.3.0".toList, Node.file [1]),
        ("_f.3/f.3.2".toList, Node.file [3])]
      (fun _ => [1]) 1
      (by decide) (by decide) (by decide) (by decide) (by decide) (by decide)
      (by decide)).imp
      (fun _ h => h.imp (fun _ h2 => ⟨h2.1, h2.2.1⟩))⟩

set_option maxRecDepth 100000 in
/-- C5 as stated fails. With chunk 0 missing and the destination path `out` an
existing directory, `BindwithFiles(1)` returns the error of `os.Create`, whose text
does not name chunk 0. With chunk 0 missing and the destination at the very path
of chunk 0, `os.Create` makes that file, the open succeeds and no error is
returned. -/
theorem BindwithFiles_missing_chunk_counterexample :
    (FS.get [("_f.1".toList, Node.dir), ("out".toList, Node.dir)]
        (chunkPath (Data.mk "f".toList 3 "_f.1".toList "out".toList) 1 0) = none ∧
      (Data.mk "f".toList 3 "_f.1".toList "out".toList).BindwithFiles 1
        [("_f.1".toList, Node.dir), ("out".toList, Node.dir)]
        = (some "failed to create a file in download location: open out: is a directory".toList,
            [("_f.1".toList, Node.dir), ("out".toList, Node.dir)]) ∧
      ¬ (chunkPath (Data.mk "f".toList 3 "_f.1".toList "out".toList) 1 0 <:+:
        "failed to create a file in download location: open out: is a directory".toList)) ∧
    (FS.get [("_f.1".toList, Node.dir)]
        (chunkPath (Data.mk "f".toList 3 "_f.1".toList "_f.1/f.1.0".toList) 1 0) = none ∧
      (Data.mk "f".toList 3 "_f.1".toList "_f.1/f.1.0".toList).BindwithFiles 1
        [("_f.1".toList, Node.dir)] = (none, [])) := by
  decide

end Uget
